import Mathlib

/-!
Verification of the chat-session orchestration core of this repository:
the `useChat` request loop (`triggerRequest`, `reload`, `stop`,
`addToolResult`), the `callChatApi` transport wrapper in plain-text
stream mode, and the `smoothStream` pacing transform.

Each definition is a shallow embedding of the corresponding TypeScript
function; JS strings become `String` (or `List Char` for the pacing
transform, where per-character scanning matters), JS `undefined`-able
fields become `Option`, and the SWR-backed mutable session state becomes
explicit state passing.
-/

namespace ChatCore

/-- Role of a chat message, mirroring the `role` field of `Message`. -/
inductive Role
  | system
  | user
  | assistant
  | tool
deriving DecidableEq, Repr

/-- Embedding of `ToolInvocation`: `result` is `none` when the JS object
has no `result` property (the code tests presence with the `in`
operator). -/
structure ToolInvocation where
  toolCallId : String
  toolName : String
  args : String
  result : Option String
deriving DecidableEq, Repr

/-- Embedding of the UI `Message` type, restricted to the fields the
verified code reads or writes. -/
structure Message where
  id : String
  role : Role
  content : String
  annotations : Option (List String)
  toolInvocations : Option (List ToolInvocation)
deriving DecidableEq, Repr

/-- Embedding of `isAssistantMessageWithCompletedToolCalls` (useChat):
the message is an assistant message, its `toolInvocations` field is
present (JS truthiness of an array object), it holds at least one
invocation, and every invocation has a `result`. -/
def isAssistantMessageWithCompletedToolCalls (message : Message) : Bool :=
  (message.role == Role.assistant) &&
    match message.toolInvocations with
    | none => false
    | some toolInvocations =>
        decide (0 < toolInvocations.length) &&
          toolInvocations.all fun toolInvocation => toolInvocation.result.isSome

/-- Helper for `countTrailingAssistantMessages`: counts the leading
assistant messages of the reversed list, which are the trailing ones of
the original list. -/
def countTrailingAssistantMessagesAux : List Message → Nat
  | [] => 0
  | m :: ms =>
      if m.role = Role.assistant then countTrailingAssistantMessagesAux ms + 1 else 0

/-- Embedding of `countTrailingAssistantMessages` (useChat): the loop
walks from the end of the array and stops at the first non-assistant
message. -/
def countTrailingAssistantMessages (messages : List Message) : Nat :=
  countTrailingAssistantMessagesAux messages.reverse

/-- Embedding of the auto-submit condition evaluated at the end of
`triggerRequest` (useChat): the message list must have grown past the
count captured at request start, a last message must exist, the feature
must be enabled (`maxSteps > 1`), the last message must be an assistant
message with completed tool calls, and the trailing-assistant count must
be below `maxSteps`. -/
def shouldAutoContinue (messageCount maxSteps : Nat) (messages : List Message) : Bool :=
  decide (messageCount < messages.length) &&
    match messages.getLast? with
    | none => false
    | some lastMessage =>
        decide (1 < maxSteps) &&
          isAssistantMessageWithCompletedToolCalls lastMessage &&
          decide (countTrailingAssistantMessages messages < maxSteps)

/-- Continuation predicate exactly as the specification words it
(spec 4.5): (a) the most recent message is an assistant message, (b) it
has at least one tool invocation and all invocations have a result, and
(c) the count of consecutive trailing assistant messages is strictly
below the step budget. Written from the spec, for comparison with the
condition embedded from the source. -/
def specContinuationPredicate (maxSteps : Nat) (messages : List Message) : Bool :=
  match messages.getLast? with
  | none => false
  | some lastMessage =>
      isAssistantMessageWithCompletedToolCalls lastMessage &&
        decide (countTrailingAssistantMessages messages < maxSteps)

/-- Default of the deprecated `experimental_maxAutomaticRoundtrips`
option of `useChat`. -/
def experimentalMaxAutomaticRoundtripsDefault : Nat := 0

/-- Default of `maxToolRoundtrips`, inherited through
`maxAutomaticRoundtrips` from `experimental_maxAutomaticRoundtrips`. -/
def maxToolRoundtripsDefault : Nat := experimentalMaxAutomaticRoundtripsDefault

/-- Default of `maxSteps` in `useChat`: `maxToolRoundtrips + 1`. -/
def maxStepsDefault : Nat := maxToolRoundtripsDefault + 1

/-- Concrete completed tool invocation used for evaluations. -/
def completedInvocation : ToolInvocation :=
  { toolCallId := "call-1", toolName := "calculator", args := "1+1", result := some "2" }

/-- Concrete assistant message whose single tool invocation is
completed. -/
def completedAssistantMessage : Message :=
  { id := "m-assistant", role := Role.assistant, content := "",
    annotations := none, toolInvocations := some [completedInvocation] }

/-- Concrete user message used for evaluations. -/
def userMessage : Message :=
  { id := "m-user", role := Role.user, content := "hi",
    annotations := none, toolInvocations := none }

theorem isAssistant_of_completedToolCalls {m : Message}
    (h : isAssistantMessageWithCompletedToolCalls m = true) : m.role = Role.assistant := by
  unfold isAssistantMessageWithCompletedToolCalls at h
  have h1 := (Bool.and_eq_true _ _).mp h
  exact eq_of_beq h1.1

theorem one_le_countTrailing_of_last_assistant {messages : List Message} {m : Message}
    (hlast : messages.getLast? = some m) (hrole : m.role = Role.assistant) :
    1 ≤ countTrailingAssistantMessages messages := by
  have hhead : messages.reverse.head? = some m := by
    rw [List.head?_reverse]; exact hlast
  obtain ⟨t, ht⟩ : ∃ t, messages.reverse = m :: t := by
    cases hrev : messages.reverse with
    | nil => rw [hrev] at hhead; simp at hhead
    | cons a t =>
        rw [hrev] at hhead
        simp at hhead
        exact ⟨t, by rw [hhead]⟩
  unfold countTrailingAssistantMessages
  rw [ht]
  unfold countTrailingAssistantMessagesAux
  simp [hrole]

/-- Claim C1, counterexample: after a round trip in which the message
list did not grow (`messageCount` equal to the current length), the code
issues no automatic follow-up even though the three conditions of the
spec predicate all hold, so the stated "if and only if" fails in the
spec-to-code direction. -/
theorem continuationPredicate_counterexample :
    shouldAutoContinue 1 2 [completedAssistantMessage] = false ∧
      specContinuationPredicate 2 [completedAssistantMessage] = true := by
  constructor <;> rfl

/-- Claim C1 (amended): the auto-continuation condition evaluated after
each round trip is true iff the spec predicate (last message assistant,
at least one tool invocation and all completed, trailing assistant count
below `maxSteps`) holds AND the message list is strictly longer than it
was when the round trip started. The explicit `maxSteps > 1` test in the
source is redundant given the other conditions. -/
theorem continuationPredicate_amended (messageCount maxSteps : Nat)
    (messages : List Message) :
    shouldAutoContinue messageCount maxSteps messages =
      (decide (messageCount < messages.length) &&
        specContinuationPredicate maxSteps messages) := by
  unfold shouldAutoContinue specContinuationPredicate
  cases hlast : messages.getLast? with
  | none => rfl
  | some lastMessage =>
      congr 1
      by_cases hc : isAssistantMessageWithCompletedToolCalls lastMessage = true
      · by_cases hcnt : countTrailingAssistantMessages messages < maxSteps
        · have hone : 1 ≤ countTrailingAssistantMessages messages :=
            one_le_countTrailing_of_last_assistant hlast
              (isAssistant_of_completedToolCalls hc)
          have hms : 1 < maxSteps := lt_of_le_of_lt hone hcnt
          simp [hc, hcnt, hms]
        · simp [hcnt]
      · simp [Bool.eq_false_iff.mpr hc]

theorem shouldAutoContinue_lt_budget {messageCount maxSteps : Nat}
    {messages : List Message}
    (h : shouldAutoContinue messageCount maxSteps messages = true) :
    countTrailingAssistantMessages messages < maxSteps := by
  unfold shouldAutoContinue at h
  have h1 := (Bool.and_eq_true _ _).mp h
  cases hlast : messages.getLast? with
  | none => rw [hlast] at h1; exact absurd h1.2 (by simp)
  | some lastMessage =>
      rw [hlast] at h1
      have h2 := (Bool.and_eq_true _ _).mp h1.2
      exact of_decide_eq_true h2.2

theorem shouldAutoContinue_budget_one (messageCount : Nat) (messages : List Message) :
    shouldAutoContinue messageCount 1 messages = false := by
  unfold shouldAutoContinue
  cases hlast : messages.getLast? with
  | none => simp
  | some lastMessage => simp

/-- Claim C2: whenever the request loop issues an automatic follow-up
(the auto-submit condition is true), the count of consecutive trailing
assistant messages is strictly below `maxSteps`; and with the default
configuration (`maxSteps = 1`, derived from the roundtrip-option
defaults) the condition is false for every state, so no automatic
follow-up is ever issued. -/
theorem autoContinue_respects_step_budget (messageCount maxSteps : Nat)
    (messages : List Message) :
    (shouldAutoContinue messageCount maxSteps messages = true →
        countTrailingAssistantMessages messages < maxSteps) ∧
      shouldAutoContinue messageCount maxStepsDefault messages = false := by
  refine ⟨fun h => shouldAutoContinue_lt_budget h, ?_⟩
  have : maxStepsDefault = 1 := rfl
  rw [this]
  exact shouldAutoContinue_budget_one messageCount messages

/-- Claim C2, witness: a state in which the auto-submit condition is
true (so the hypothesis of the bound is satisfiable) together with the
default-budget refusal at the same state. -/
theorem autoContinue_respects_step_budget_witness :
    countTrailingAssistantMessages [userMessage, completedAssistantMessage] < 2 ∧
      shouldAutoContinue 1 maxStepsDefault [userMessage, completedAssistantMessage] = false := by
  constructor
  · exact (autoContinue_respects_step_budget 1 2
      [userMessage, completedAssistantMessage]).1 (by decide)
  · exact (autoContinue_respects_step_budget 1 2
      [userMessage, completedAssistantMessage]).2

/-- Embedding of the arrow function inside `addToolResult` that updates
one tool invocation: a matching `toolCallId` gets the supplied `result`
attached (object spread keeps every other field), any other invocation
is returned unchanged. -/
def updateToolInvocation (toolCallId result : String)
    (toolInvocation : ToolInvocation) : ToolInvocation :=
  if toolInvocation.toolCallId == toolCallId
  then { toolInvocation with result := some result }
  else toolInvocation

/-- Embedding of the message-list update in `addToolResult` (useChat):
`messages.map((message, index, arr) => ...)` rewrites only the element
at the last index, and only when it is an assistant message whose
`toolInvocations` field is present. -/
def addToolResultMessages (toolCallId result : String)
    (messages : List Message) : List Message :=
  messages.mapIdx fun index message =>
    if (index == messages.length - 1) && (message.role == Role.assistant) &&
        message.toolInvocations.isSome
    then { message with
            toolInvocations := message.toolInvocations.map fun toolInvocations =>
              toolInvocations.map (updateToolInvocation toolCallId result) }
    else message

/-- Embedding of the auto-submit decision at the end of `addToolResult`:
after the update, a request is triggered exactly when the last message
is an assistant message with completed tool calls. -/
def addToolResultTriggers (toolCallId result : String)
    (messages : List Message) : Bool :=
  match (addToolResultMessages toolCallId result messages).getLast? with
  | none => false
  | some lastMessage => isAssistantMessageWithCompletedToolCalls lastMessage

theorem mapIdx_concat_of_frozen_init {α : Type} (g : Nat → α → α)
    (init : List α) (last : α)
    (h : ∀ i, i < init.length → ∀ a, g i a = a) :
    (init ++ [last]).mapIdx g = init ++ [g init.length last] := by
  induction init generalizing g with
  | nil => simp [List.mapIdx_cons]
  | cons a rest ih =>
      rw [List.cons_append, List.mapIdx_cons, h 0 (by simp) a]
      rw [ih (fun i => g (i + 1)) (fun i hi b => h (i + 1) (by simpa using hi) b)]
      simp

theorem addToolResultMessages_concat (toolCallId result : String)
    (init : List Message) (last : Message) :
    addToolResultMessages toolCallId result (init ++ [last]) =
      init ++ [if (last.role == Role.assistant) && last.toolInvocations.isSome
               then { last with
                       toolInvocations := last.toolInvocations.map fun toolInvocations =>
                         toolInvocations.map (updateToolInvocation toolCallId result) }
               else last] := by
  unfold addToolResultMessages
  rw [mapIdx_concat_of_frozen_init]
  · have hidx : (init.length == (init ++ [last]).length - 1) = true := by
      simp
    rw [hidx]
    simp only [Bool.true_and]
  · intro i hi a
    have hidx : (i == (init ++ [last]).length - 1) = false := by
      simp only [List.length_append, List.length_cons, List.length_nil, beq_eq_false_iff_ne,
        ne_eq]
      omega
    rw [hidx]
    simp

/-- Concrete tool invocation still lacking its result. -/
def pendingInvocation : ToolInvocation :=
  { toolCallId := "call-9", toolName := "calculator", args := "2+2", result := none }

/-- Concrete assistant message whose single tool invocation still lacks
its result. -/
def pendingAssistantMessage : Message :=
  { id := "m-pending", role := Role.assistant, content := "",
    annotations := none, toolInvocations := some [pendingInvocation] }

/-- Claim C3: when the last message is an assistant message with exactly
one tool invocation and that invocation lacks a result, `addToolResult`
with the matching id attaches the result to it and triggers exactly one
automatic follow-up request; and with step budget 1 the request loop
never issues a further automatic request afterwards, whatever state the
follow-up response produced. -/
theorem addToolResult_triggers_exactly_one_followup
    (init : List Message) (m : Message) (inv : ToolInvocation) (result : String)
    (hrole : m.role = Role.assistant)
    (hinvs : m.toolInvocations = some [inv])
    (_hpending : inv.result = none) :
    (addToolResultMessages inv.toolCallId result (init ++ [m])).getLast? =
        some { m with toolInvocations := some [{ inv with result := some result }] }
      ∧ addToolResultTriggers inv.toolCallId result (init ++ [m]) = true
      ∧ (∀ (messageCount : Nat) (messages2 : List Message),
          shouldAutoContinue messageCount 1 messages2 = false) := by
  have hguard : ((m.role == Role.assistant) && m.toolInvocations.isSome) = true := by
    rw [hrole, hinvs]; rfl
  have hupd : updateToolInvocation inv.toolCallId result inv =
      { inv with result := some result } := by
    unfold updateToolInvocation
    rw [if_pos (by simp)]
  have hmsg : addToolResultMessages inv.toolCallId result (init ++ [m]) =
      init ++ [{ m with toolInvocations := some [{ inv with result := some result }] }] := by
    rw [addToolResultMessages_concat, if_pos hguard, hinvs]
    simp [hupd]
  refine ⟨?_, ?_, fun messageCount messages2 =>
    shouldAutoContinue_budget_one messageCount messages2⟩
  · rw [hmsg, List.getLast?_concat]
  · unfold addToolResultTriggers
    rw [hmsg, List.getLast?_concat]
    simp only []
    unfold isAssistantMessageWithCompletedToolCalls
    rw [hrole]
    rfl

/-- Claim C3, witness: the theorem evaluated on a two-message list whose
trailing assistant message has one pending invocation. -/
theorem addToolResult_triggers_exactly_one_followup_witness :
    (addToolResultMessages "call-9" "4" [userMessage, pendingAssistantMessage]).getLast? =
        some { pendingAssistantMessage with
                toolInvocations := some [{ pendingInvocation with result := some "4" }] }
      ∧ addToolResultTriggers "call-9" "4" [userMessage, pendingAssistantMessage] = true
      ∧ (∀ (messageCount : Nat) (messages2 : List Message),
          shouldAutoContinue messageCount 1 messages2 = false) :=
  addToolResult_triggers_exactly_one_followup [userMessage] pendingAssistantMessage
    pendingInvocation "4" rfl rfl rfl

/-- Claim C9: `addToolResult` never adds or removes messages, leaves
every message except the last one unchanged, rewrites the last message
(when it is an assistant message with a `toolInvocations` field) only in
its `toolInvocations`, where non-matching invocations are unchanged and
a matching invocation only gains the supplied result; when the last
message is not an assistant message with tool invocations, the whole
list is unchanged. -/
theorem addToolResult_frame (toolCallId result : String) (messages : List Message) :
    (addToolResultMessages toolCallId result messages).length = messages.length
  ∧ (∀ i, i + 1 < messages.length →
      (addToolResultMessages toolCallId result messages)[i]? = messages[i]?)
  ∧ (∀ m, messages.getLast? = some m →
      (¬ (m.role = Role.assistant ∧ m.toolInvocations.isSome = true) →
          addToolResultMessages toolCallId result messages = messages)
      ∧ (∀ invs, m.toolInvocations = some invs → m.role = Role.assistant →
          (addToolResultMessages toolCallId result messages).getLast? =
            some { m with
                    toolInvocations :=
                      some (invs.map (updateToolInvocation toolCallId result)) }))
  ∧ (∀ inv : ToolInvocation,
      (inv.toolCallId ≠ toolCallId → updateToolInvocation toolCallId result inv = inv)
      ∧ (inv.toolCallId = toolCallId →
          updateToolInvocation toolCallId result inv = { inv with result := some result })) := by
  refine ⟨?_, ?_, ?_, ?_⟩
  · unfold addToolResultMessages
    exact List.length_mapIdx
  · intro i hi
    rcases List.eq_nil_or_concat messages with hnil | ⟨init, last, hm⟩
    · simp [hnil] at hi
    · rw [List.concat_eq_append] at hm
      subst hm
      rw [addToolResultMessages_concat]
      have hlt : i < init.length := by
        simp only [List.length_append, List.length_cons, List.length_nil] at hi
        omega
      rw [List.getElem?_append_left hlt, List.getElem?_append_left hlt]
  · intro m hlast
    rcases List.eq_nil_or_concat messages with hnil | ⟨init, last, hm⟩
    · rw [hnil] at hlast; simp at hlast
    · rw [List.concat_eq_append] at hm
      subst hm
      rw [List.getLast?_concat] at hlast
      have hml : last = m := by injection hlast
      subst hml
      constructor
      · intro hng
        have hguard : ((last.role == Role.assistant) && last.toolInvocations.isSome) = false := by
          by_cases hr : last.role = Role.assistant
          · have hs : last.toolInvocations.isSome = false := by
              by_cases hs2 : last.toolInvocations.isSome = true
              · exact absurd ⟨hr, hs2⟩ hng
              · simpa using hs2
            rw [hs]
            simp
          · have : (last.role == Role.assistant) = false := by
              simpa using hr
            rw [this]
            simp
        rw [addToolResultMessages_concat, if_neg (by rw [hguard]; simp)]
      · intro invs hinvs hrole
        have hguard : ((last.role == Role.assistant) && last.toolInvocations.isSome) = true := by
          rw [hrole, hinvs]; rfl
        rw [addToolResultMessages_concat, if_pos hguard, hinvs, List.getLast?_concat]
        rfl
  · intro inv
    constructor
    · intro hne
      unfold updateToolInvocation
      rw [if_neg (by simpa using hne)]
    · intro heq
      unfold updateToolInvocation
      rw [if_pos (by simpa using heq)]

/-- Claim C9, witness: the frame conditions evaluated on concrete lists,
one whose last message is a pending assistant message and one whose last
message is a plain user message. -/
theorem addToolResult_frame_witness :
    (addToolResultMessages "call-9" "4" [userMessage, pendingAssistantMessage]).length = 2
  ∧ (addToolResultMessages "call-9" "4" [userMessage, pendingAssistantMessage])[0]? =
      some userMessage
  ∧ (addToolResultMessages "call-9" "4" [userMessage, pendingAssistantMessage]).getLast? =
      some { pendingAssistantMessage with
              toolInvocations :=
                some ([pendingInvocation].map (updateToolInvocation "call-9" "4")) }
  ∧ addToolResultMessages "call-9" "4" [userMessage, userMessage] =
      [userMessage, userMessage] := by
  have h1 := addToolResult_frame "call-9" "4" [userMessage, pendingAssistantMessage]
  have h2 := addToolResult_frame "call-9" "4" [userMessage, userMessage]
  refine ⟨h1.1, h1.2.1 0 (by decide), ?_, ?_⟩
  · exact (h1.2.2.1 pendingAssistantMessage rfl).2 [pendingInvocation] rfl rfl
  · exact (h2.2.2.1 userMessage rfl).1 (by decide)

/-- Outcome of the `fetch` call inside `callChatApi`: the promise
rejected, the response arrived with a non-ok status (its body text
becomes the thrown error message), or the response is ok and its body
delivers a list of decoded text chunks. For an ok response,
`abortedAt = some k` means the abort controller reference was cleared by
`stop()` and the loop observes that from the k-th processed chunk on;
`none` means no cancellation happens. -/
inductive FetchOutcome
  | threw (err : String)
  | notOk (errText : String)
  | ok (chunks : List String) (abortedAt : Option Nat)
deriving Repr

/-- Embedding of the `restoreMessagesOnFailure` callback built in
`getStreamedResponse` (useChat): unless the caller opted into
`keepLastMessageOnError`, the store is rolled back to the snapshot taken
before the optimistic append. -/
def restoreMessagesOnFailure (keepLastMessageOnError : Bool)
    (previousMessages current : List Message) : List Message :=
  if keepLastMessageOnError then current else previousMessages

/-- Test performed after each processed chunk in the plain-text read
loop: `abortController?.() === null` is true from the cancellation point
on. -/
def isAbortedAt (abortedAt : Option Nat) (n : Nat) : Bool :=
  match abortedAt with
  | some k => decide (k ≤ n)
  | none => false

/-- Embedding of the `while (true)` read loop of `callChatApi` in
plain-text mode: each chunk is appended to the running content and the
message id is regenerated (`n` counts processed chunks, naming the id
generator calls); after publishing a chunk the loop stops if the abort
controller reference has been cleared. Returns the processed-chunk
count and the accumulated content. -/
def textModeLoop (abortedAt : Option Nat) (n : Nat) (content : String) :
    List String → Nat × String
  | [] => (n, content)
  | chunk :: rest =>
      if isAbortedAt abortedAt (n + 1) then (n + 1, content ++ chunk)
      else textModeLoop abortedAt (n + 1) (content ++ chunk) rest

/-- Result of one `callChatApi` call in plain-text mode: the state of
the shared message store once the call settles (the optimistic update,
the per-chunk `onUpdate` publications and the failure rollback all
mutate it), and the value the call returns to `processChatStream` — the
reconstructed messages with the side data, or the thrown error. -/
structure CallChatApiResult where
  store : List Message
  returned : Except String (List Message × List String)
deriving Repr

/-- Embedding of `callChatApi` in plain-text (text stream mode)
mode, combined with the optimistic update and rollback closure of
`getStreamedResponse`: `previousMessages` is the snapshot captured
before the optimistic append and `requestMessages` is
`chatRequest.messages`, already published to the store when the fetch
starts. A rejected fetch or a non-ok status restores the snapshot (per
`keepLastMessageOnError`) and rethrows; an ok response runs the read
loop and returns the single accumulated assistant message with empty
side data. -/
def callChatApiTextMode (generateId : Nat → String) (keepLastMessageOnError : Bool)
    (previousMessages requestMessages : List Message)
    (fetch : FetchOutcome) : CallChatApiResult :=
  match fetch with
  | .threw err =>
      { store := restoreMessagesOnFailure keepLastMessageOnError
          previousMessages requestMessages,
        returned := Except.error err }
  | .notOk errText =>
      { store := restoreMessagesOnFailure keepLastMessageOnError
          previousMessages requestMessages,
        returned := Except.error errText }
  | .ok chunks abortedAt =>
      let r := textModeLoop abortedAt 0 "" chunks
      let resultMessage : Message :=
        { id := generateId r.1, role := Role.assistant, content := r.2,
          annotations := none, toolInvocations := none }
      { store := if r.1 = 0 then requestMessages else requestMessages ++ [resultMessage],
        returned := Except.ok ([resultMessage], []) }

/-- Session slots of the store shared under one chat id: the message
list, the `isLoading` flag and the `error` slot. -/
structure Session where
  messages : List Message
  isLoading : Bool
  error : Option String
deriving DecidableEq, Repr

/-- How the awaited `processChatStream` call inside `triggerRequest`
settles: it resolves, it rejects with an `AbortError`, or it rejects
with any other error. -/
inductive StreamPhaseResult
  | completed
  | abortError
  | failure (err : String)
deriving DecidableEq, Repr

/-- Embedding of the entry of `triggerRequest` (useChat): before the
request is awaited, `mutateLoading(true)` and `setError(undefined)`
run. -/
def triggerRequestStart (s : Session) : Session :=
  { s with isLoading := true, error := none }

/-- Embedding of the exit of `triggerRequest` (useChat):
`streamMessages` is the message list as the streaming phase left it in
the store. An `AbortError` is swallowed (the error slot is not
touched), any other rejection lands in the error slot via `setError`,
and the `finally` block always runs `mutateLoading(false)`. -/
def triggerRequestSettle (s : Session) (streamMessages : List Message) :
    StreamPhaseResult → Session
  | .completed => { s with messages := streamMessages, isLoading := false }
  | .abortError => { s with messages := streamMessages, isLoading := false }
  | .failure err =>
      { s with messages := streamMessages, isLoading := false, error := some err }

theorem string_foldl_append (l : List String) (s : String) :
    l.foldl (fun r c => r ++ c) s = s ++ String.join l := by
  induction l generalizing s with
  | nil =>
      simp [String.join]
  | cons a rest ih =>
      show (rest.foldl (fun r c => r ++ c) (s ++ a)) = s ++ String.join (a :: rest)
      rw [ih (s ++ a)]
      have hj : String.join (a :: rest) = a ++ String.join rest := by
        show ((a :: rest).foldl (fun r c => r ++ c) "") = a ++ String.join rest
        show (rest.foldl (fun r c => r ++ c) ("" ++ a)) = a ++ String.join rest
        rw [ih ("" ++ a)]
        rw [String.empty_append]
      rw [hj, String.append_assoc]

theorem string_join_cons (a : String) (rest : List String) :
    String.join (a :: rest) = a ++ String.join rest := by
  show ((a :: rest).foldl (fun r c => r ++ c) "") = a ++ String.join rest
  show (rest.foldl (fun r c => r ++ c) ("" ++ a)) = a ++ String.join rest
  rw [string_foldl_append, String.empty_append]

theorem textModeLoop_no_abort (chunks : List String) (n : Nat) (content : String) :
    textModeLoop none n content chunks = (n + chunks.length, content ++ String.join chunks) := by
  induction chunks generalizing n content with
  | nil => simp [textModeLoop, String.join]
  | cons chunk rest ih =>
      unfold textModeLoop
      have hab : isAbortedAt none (n + 1) = false := rfl
      rw [hab]
      simp only [Bool.false_eq_true, if_false]
      rw [ih (n + 1) (content ++ chunk)]
      simp only [Prod.mk.injEq]
      refine ⟨by simp; omega, ?_⟩
      rw [string_join_cons, String.append_assoc]

theorem textModeLoop_abort (chunks : List String) (n d : Nat) (content : String) :
    textModeLoop (some (n + d + 1)) n content chunks =
      (n + min (d + 1) chunks.length,
        content ++ String.join (chunks.take (d + 1))) := by
  induction chunks generalizing n d content with
  | nil => simp [textModeLoop, String.join]
  | cons chunk rest ih =>
      unfold textModeLoop
      cases d with
      | zero =>
          have hab : isAbortedAt (some (n + 0 + 1)) (n + 1) = true := by
            simp [isAbortedAt]
          rw [hab]
          simp only [if_true]
          have hj : String.join ((chunk :: rest).take 1) = chunk := by
            simp [String.join]
          rw [hj]
          simp only [Prod.mk.injEq]
          exact ⟨by simp only [List.length_cons]; omega, trivial⟩
      | succ d2 =>
          have hab : isAbortedAt (some (n + (d2 + 1) + 1)) (n + 1) = false := by
            simp [isAbortedAt]
          rw [hab]
          simp only [Bool.false_eq_true, if_false]
          have harg : n + (d2 + 1) + 1 = (n + 1) + d2 + 1 := by omega
          rw [harg, ih (n + 1) d2 (content ++ chunk)]
          have hj : String.join ((chunk :: rest).take (d2 + 1 + 1)) =
              chunk ++ String.join (rest.take (d2 + 1)) := by
            rw [List.take_succ_cons, string_join_cons]
          simp only [Prod.mk.injEq]
          refine ⟨by simp only [List.length_cons]; omega, ?_⟩
          rw [hj, String.append_assoc]

/-- Claim C4: when the fetch itself rejects or the response status is
not ok (failure before any response bytes), the store is restored to the
pre-request snapshot unless `keepLastMessageOnError` is set, in which
case the optimistically published messages are kept; the failure is
rethrown to the caller and lands in the session error slot. -/
theorem failure_before_bytes_rolls_back (generateId : Nat → String)
    (keepLastMessageOnError : Bool) (previousMessages requestMessages : List Message)
    (err : String) (s : Session) (streamMessages : List Message) :
    (callChatApiTextMode generateId keepLastMessageOnError previousMessages
        requestMessages (FetchOutcome.threw err)).store =
      (if keepLastMessageOnError then requestMessages else previousMessages)
  ∧ (callChatApiTextMode generateId keepLastMessageOnError previousMessages
        requestMessages (FetchOutcome.threw err)).returned = Except.error err
  ∧ (callChatApiTextMode generateId keepLastMessageOnError previousMessages
        requestMessages (FetchOutcome.notOk err)).store =
      (if keepLastMessageOnError then requestMessages else previousMessages)
  ∧ (callChatApiTextMode generateId keepLastMessageOnError previousMessages
        requestMessages (FetchOutcome.notOk err)).returned = Except.error err
  ∧ (triggerRequestSettle s streamMessages (StreamPhaseResult.failure err)).error =
      some err :=
  ⟨rfl, rfl, rfl, rfl, rfl⟩

/-- Claim C5: on cancellation, the request settles with the error slot
left unset and `isLoading` false, keeping whatever the stream already
reduced; and a clean mid-stream stop after `k + 1` chunks leaves the
optimistic messages plus one assistant message holding exactly the
content of the chunks read before the abort — no rollback to the
pre-request snapshot occurs. -/
theorem stop_keeps_partial_content (s : Session) (streamMessages : List Message)
    (generateId : Nat → String) (keepLastMessageOnError : Bool)
    (previousMessages requestMessages : List Message)
    (chunk : String) (chunks : List String) (k : Nat) :
    (triggerRequestSettle (triggerRequestStart s) streamMessages
        StreamPhaseResult.abortError).error = none
  ∧ (triggerRequestSettle (triggerRequestStart s) streamMessages
        StreamPhaseResult.abortError).isLoading = false
  ∧ (triggerRequestSettle (triggerRequestStart s) streamMessages
        StreamPhaseResult.abortError).messages = streamMessages
  ∧ (∃ m : Message,
      (callChatApiTextMode generateId keepLastMessageOnError previousMessages
          requestMessages (FetchOutcome.ok (chunk :: chunks) (some (k + 1)))).store =
        requestMessages ++ [m]
      ∧ m.content = String.join ((chunk :: chunks).take (k + 1))
      ∧ m.role = Role.assistant) := by
  refine ⟨rfl, rfl, rfl, ?_⟩
  have hloop := textModeLoop_abort (chunk :: chunks) 0 k ""
  simp only [Nat.zero_add, String.empty_append] at hloop
  have hmin : ¬ (min (k + 1) (chunk :: chunks).length = 0) := by
    simp only [List.length_cons]
    omega
  refine ⟨{ id := generateId (min (k + 1) (chunk :: chunks).length),
            role := Role.assistant,
            content := String.join ((chunk :: chunks).take (k + 1)),
            annotations := none,
            toolInvocations := none }, ?_, rfl, rfl⟩
  simp only [callChatApiTextMode, hloop]
  rw [if_neg hmin]

/-- Claim C6: `isLoading` is set on request entry and is false again
once the request settles, whatever the outcome; a non-abort failure
lands in the error slot; a successful request started from any session
state (also one holding a previous error) settles with the error slot
cleared. -/
theorem isLoading_and_error_lifecycle (s : Session) (streamMessages : List Message)
    (r : StreamPhaseResult) (err : String) :
    (triggerRequestStart s).isLoading = true
  ∧ (triggerRequestSettle (triggerRequestStart s) streamMessages r).isLoading = false
  ∧ (triggerRequestSettle (triggerRequestStart s) streamMessages
        (StreamPhaseResult.failure err)).error = some err
  ∧ (triggerRequestSettle (triggerRequestStart s) streamMessages
        StreamPhaseResult.completed).error = none := by
  refine ⟨rfl, ?_, rfl, rfl⟩
  cases r <;> rfl

/-- Claim C7: in plain-text stream mode an undisturbed response of any
chunk sequence yields exactly one assistant message whose content is the
concatenation of the decoded chunks in arrival order, returned together
with empty side data. -/
theorem plain_text_mode_single_message (generateId : Nat → String)
    (keepLastMessageOnError : Bool) (previousMessages requestMessages : List Message)
    (chunks : List String) :
    ∃ m : Message,
      (callChatApiTextMode generateId keepLastMessageOnError previousMessages
          requestMessages (FetchOutcome.ok chunks none)).returned =
        Except.ok ([m], [])
      ∧ m.role = Role.assistant
      ∧ m.content = String.join chunks := by
  have hloop := textModeLoop_no_abort chunks 0 ""
  simp only [Nat.zero_add, String.empty_append] at hloop
  refine ⟨{ id := generateId chunks.length,
            role := Role.assistant,
            content := String.join chunks,
            annotations := none,
            toolInvocations := none }, ?_, rfl, rfl⟩
  simp only [callChatApiTextMode, hloop]

/-- Embedding of `reload` (useChat): an empty message list returns null
without issuing a request; otherwise the request payload drops the last
message when it is an assistant message and is the full list otherwise.
The returned value is the issued request payload, `none` when no request
is issued. -/
def reload (messages : List Message) : Option (List Message) :=
  if messages.length = 0 then none
  else
    match messages.getLast? with
    | none => none
    | some lastMessage =>
        if lastMessage.role = Role.assistant
        then some messages.dropLast
        else some messages

/-- Claim C8: `reload` on an empty list issues no request; when the last
message has the assistant role the issued payload is the list without
its last element; otherwise the issued payload is the full list. -/
theorem reload_spec (messages : List Message) (m : Message) :
    reload [] = none
  ∧ (messages.getLast? = some m → m.role = Role.assistant →
      reload messages = some messages.dropLast)
  ∧ (messages.getLast? = some m → m.role ≠ Role.assistant →
      reload messages = some messages) := by
  refine ⟨rfl, ?_, ?_⟩ <;> intro hlast hrole
  · have hne : messages.length ≠ 0 := by
      intro h0
      rw [List.length_eq_zero.mp h0] at hlast
      simp at hlast
    unfold reload
    rw [if_neg hne, hlast]
    simp [hrole]
  · have hne : messages.length ≠ 0 := by
      intro h0
      rw [List.length_eq_zero.mp h0] at hlast
      simp at hlast
    unfold reload
    rw [if_neg hne, hlast]
    simp [hrole]

/-- Claim C8, witness: reload evaluated on a list ending in an assistant
message and on a list ending in a user message. -/
theorem reload_spec_witness :
    reload [userMessage, completedAssistantMessage] = some [userMessage]
  ∧ reload [completedAssistantMessage, userMessage] =
      some [completedAssistantMessage, userMessage] := by
  constructor
  · have h := (reload_spec [userMessage, completedAssistantMessage]
      completedAssistantMessage).2.1 rfl rfl
    rw [h]
    rfl
  · exact (reload_spec [completedAssistantMessage, userMessage] userMessage).2.2
      rfl (by decide)

/-- Model of the regular expression `\s` used by `smoothStream`,
restricted to its ASCII members (space, tab, line feed, carriage return,
vertical tab, form feed). Text is modeled as `List Char` because the
transform scans strings character by character. -/
def isWhitespaceChar (c : Char) : Bool :=
  c == ' ' || c == '\t' || c == '\n' || c == '\r' || c == '\x0b' || c == '\x0c'

/-- Embedding of the `while (buffer.match(/\s/))` loop of `smoothStream`
with explicit fuel: each iteration finds the first whitespace position
(`buffer.search(/\s/)`), emits `buffer.slice(0, index + 1)` as one word
and continues on `buffer.slice(index + 1)`. Every emitted word consumes
at least one character, so fuel equal to the buffer length never runs
out. Returns the emitted words and the remaining buffer. -/
def emitWordsFuel : Nat → List Char → List (List Char) × List Char
  | 0, buffer => ([], buffer)
  | fuel + 1, buffer =>
      match buffer.findIdx? isWhitespaceChar with
      | none => ([], buffer)
      | some whitespaceIndex =>
          ((buffer.take (whitespaceIndex + 1)) ::
              (emitWordsFuel fuel (buffer.drop (whitespaceIndex + 1))).1,
            (emitWordsFuel fuel (buffer.drop (whitespaceIndex + 1))).2)

/-- The word-splitting loop of `smoothStream` run to completion. -/
def emitWords (buffer : List Char) : List (List Char) × List Char :=
  emitWordsFuel buffer.length buffer

/-- Stream parts seen by the `smoothStream` transform: running text
deltas, step-finish boundaries, and every other part kind (carrying an
opaque payload), which the transform forwards untouched. -/
inductive TextStreamPart
  | textDelta (textDelta : List Char)
  | stepFinish
  | other (payload : Nat)
deriving DecidableEq, Repr

/-- Embedding of the `transform` callback of `smoothStream` as a
function from the buffer state and the incoming chunk to the emitted
chunks and the next buffer state: a `step-finish` first flushes a
non-empty buffer as one text delta and is then forwarded; any chunk that
is not a text delta is forwarded unchanged; a text delta is appended to
the buffer, from which the word loop emits whole words. The pacing
delay only suspends and is dropped from the embedding. -/
def smoothStreamTransform (buffer : List Char) :
    TextStreamPart → List TextStreamPart × List Char
  | TextStreamPart.stepFinish =>
      ((if buffer.length > 0 then [TextStreamPart.textDelta buffer] else []) ++
        [TextStreamPart.stepFinish], [])
  | TextStreamPart.other payload => ([TextStreamPart.other payload], buffer)
  | TextStreamPart.textDelta s =>
      ((emitWords (buffer ++ s)).1.map TextStreamPart.textDelta,
        (emitWords (buffer ++ s)).2)

/-- The `smoothStream` transform folded over a whole chunk sequence,
threading the buffer and concatenating the emitted chunks. -/
def smoothStreamRun (buffer : List Char) :
    List TextStreamPart → List TextStreamPart × List Char
  | [] => ([], buffer)
  | chunk :: rest =>
      ((smoothStreamTransform buffer chunk).1 ++
          (smoothStreamRun (smoothStreamTransform buffer chunk).2 rest).1,
        (smoothStreamRun (smoothStreamTransform buffer chunk).2 rest).2)

/-- Text carried by a stream part: the payload of a text delta, empty
for everything else. -/
def textDeltaContent : TextStreamPart → List Char
  | TextStreamPart.textDelta s => s
  | _ => []

/-- Concatenation of all text-delta payloads of a part sequence. -/
def concatTextDeltas (parts : List TextStreamPart) : List Char :=
  (parts.map textDeltaContent).flatten

/-- Recognizer for the parts the transform must forward untouched:
neither text deltas nor step-finish markers. -/
def isOtherPart : TextStreamPart → Bool
  | TextStreamPart.other _ => true
  | _ => false

/-- A word ends at a whitespace boundary when its final character is
whitespace. -/
def wordEndsInWhitespace (w : List Char) : Bool :=
  match w.getLast? with
  | some c => isWhitespaceChar c
  | none => false

/-- A stream part is a text delta ending at a whitespace boundary. -/
def partEndsInWhitespace : TextStreamPart → Bool
  | TextStreamPart.textDelta s => wordEndsInWhitespace s
  | _ => false

theorem findIdx?_char_spec (p : Char → Bool) (l : List Char) :
    ∀ (s i : Nat), List.findIdx? p l s = some i →
      s ≤ i ∧ ∃ c, l[i - s]? = some c ∧ p c = true := by
  induction l with
  | nil =>
      intro s i h
      rw [List.findIdx?_nil] at h
      exact absurd h (by simp)
  | cons x xs ih =>
      intro s i h
      rw [List.findIdx?_cons] at h
      by_cases hp : p x = true
      · rw [if_pos hp] at h
        have hsi : s = i := by injection h
        subst hsi
        exact ⟨Nat.le_refl s, x, by simp, hp⟩
      · rw [if_neg hp] at h
        obtain ⟨hle, c, hc, hpc⟩ := ih (s + 1) i h
        refine ⟨by omega, c, ?_, hpc⟩
        have hidx : i - s = (i - (s + 1)) + 1 := by omega
        rw [hidx, List.getElem?_cons_succ]
        exact hc

theorem emitWordsFuel_flatten (fuel : Nat) :
    ∀ buffer : List Char,
      ((emitWordsFuel fuel buffer).1).flatten ++ (emitWordsFuel fuel buffer).2 = buffer := by
  induction fuel with
  | zero => intro buffer; simp [emitWordsFuel]
  | succ fuel ih =>
      intro buffer
      unfold emitWordsFuel
      cases h : buffer.findIdx? isWhitespaceChar with
      | none => simp
      | some whitespaceIndex =>
          simp only [List.flatten_cons]
          rw [List.append_assoc, ih (buffer.drop (whitespaceIndex + 1))]
          exact List.take_append_drop (whitespaceIndex + 1) buffer

theorem emitWordsFuel_words_end (fuel : Nat) :
    ∀ buffer : List Char,
      ((emitWordsFuel fuel buffer).1).all wordEndsInWhitespace = true := by
  induction fuel with
  | zero => intro buffer; simp [emitWordsFuel]
  | succ fuel ih =>
      intro buffer
      unfold emitWordsFuel
      cases h : buffer.findIdx? isWhitespaceChar with
      | none => simp
      | some whitespaceIndex =>
          simp only [List.all_cons]
          obtain ⟨-, c, hc, hpc⟩ := findIdx?_char_spec isWhitespaceChar buffer 0
            whitespaceIndex h
          rw [Nat.sub_zero] at hc
          have hword : wordEndsInWhitespace (buffer.take (whitespaceIndex + 1)) = true := by
            unfold wordEndsInWhitespace
            rw [List.take_succ, hc]
            simp only [Option.toList_some]
            rw [List.getLast?_concat]
            exact hpc
          rw [hword, ih (buffer.drop (whitespaceIndex + 1))]
          rfl

theorem concatTextDeltas_map_textDelta (ws : List (List Char)) :
    concatTextDeltas (ws.map TextStreamPart.textDelta) = ws.flatten := by
  induction ws with
  | nil => rfl
  | cons w rest ih =>
      simp only [List.map_cons, concatTextDeltas, List.flatten_cons] at ih ⊢
      rw [ih]
      rfl

theorem concatTextDeltas_append (xs ys : List TextStreamPart) :
    concatTextDeltas (xs ++ ys) = concatTextDeltas xs ++ concatTextDeltas ys := by
  unfold concatTextDeltas
  rw [List.map_append, List.flatten_append]

theorem filter_other_map_textDelta (ws : List (List Char)) :
    (ws.map TextStreamPart.textDelta).filter isOtherPart = [] := by
  induction ws with
  | nil => rfl
  | cons w rest ih => simp [isOtherPart, ih]

theorem smoothStreamTransform_flatten (buffer : List Char) (chunk : TextStreamPart) :
    concatTextDeltas (smoothStreamTransform buffer chunk).1 ++
        (smoothStreamTransform buffer chunk).2 =
      buffer ++ textDeltaContent chunk := by
  cases chunk with
  | stepFinish =>
      by_cases hb : buffer.length > 0
      · simp [smoothStreamTransform, hb, concatTextDeltas, textDeltaContent]
      · have hnil : buffer = [] := List.length_eq_zero.mp (by omega)
        simp [smoothStreamTransform, hb, hnil, concatTextDeltas, textDeltaContent]
  | other payload =>
      simp [smoothStreamTransform, concatTextDeltas, textDeltaContent, isOtherPart]
  | textDelta s =>
      simp only [smoothStreamTransform, textDeltaContent]
      rw [concatTextDeltas_map_textDelta]
      exact emitWordsFuel_flatten (buffer ++ s).length (buffer ++ s)

theorem smoothStreamRun_flatten (parts : List TextStreamPart) :
    ∀ buffer : List Char,
      concatTextDeltas (smoothStreamRun buffer parts).1 ++ (smoothStreamRun buffer parts).2 =
        buffer ++ concatTextDeltas parts := by
  induction parts with
  | nil =>
      intro buffer
      simp [smoothStreamRun, concatTextDeltas]
  | cons chunk rest ih =>
      intro buffer
      unfold smoothStreamRun
      rw [concatTextDeltas_append, List.append_assoc,
        ih (smoothStreamTransform buffer chunk).2]
      rw [← List.append_assoc, smoothStreamTransform_flatten buffer chunk]
      have : concatTextDeltas (chunk :: rest) =
          textDeltaContent chunk ++ concatTextDeltas rest := by
        simp [concatTextDeltas]
      rw [this, List.append_assoc]

theorem smoothStreamRun_cons (buffer : List Char) (chunk : TextStreamPart)
    (rest : List TextStreamPart) :
    smoothStreamRun buffer (chunk :: rest) =
      ((smoothStreamTransform buffer chunk).1 ++
          (smoothStreamRun (smoothStreamTransform buffer chunk).2 rest).1,
        (smoothStreamRun (smoothStreamTransform buffer chunk).2 rest).2) := rfl

theorem smoothStreamRun_append (xs ys : List TextStreamPart) :
    ∀ buffer : List Char,
      smoothStreamRun buffer (xs ++ ys) =
        ((smoothStreamRun buffer xs).1 ++
            (smoothStreamRun (smoothStreamRun buffer xs).2 ys).1,
          (smoothStreamRun (smoothStreamRun buffer xs).2 ys).2) := by
  induction xs with
  | nil => intro buffer; simp [smoothStreamRun]
  | cons chunk rest ih =>
      intro buffer
      rw [List.cons_append, smoothStreamRun_cons, smoothStreamRun_cons,
        ih (smoothStreamTransform buffer chunk).2]
      simp [List.append_assoc]

theorem smoothStreamRun_filter_other (parts : List TextStreamPart) :
    ∀ buffer : List Char,
      (smoothStreamRun buffer parts).1.filter isOtherPart = parts.filter isOtherPart := by
  induction parts with
  | nil => intro buffer; rfl
  | cons chunk rest ih =>
      intro buffer
      unfold smoothStreamRun
      rw [List.filter_append, ih (smoothStreamTransform buffer chunk).2]
      cases chunk with
      | stepFinish =>
          by_cases hb : buffer.length > 0 <;>
            simp [smoothStreamTransform, hb, isOtherPart]
      | other payload => simp [smoothStreamTransform, isOtherPart]
      | textDelta s =>
          simp only [smoothStreamTransform]
          rw [filter_other_map_textDelta]
          simp [isOtherPart]

theorem map_textDelta_all_ends (ws : List (List Char)) :
    ((ws.map TextStreamPart.textDelta).all partEndsInWhitespace) =
      ws.all wordEndsInWhitespace := by
  induction ws with
  | nil => rfl
  | cons w rest ih =>
      simp only [List.map_cons, List.all_cons, ih]
      rfl

/-- Claim C10: the `smoothStream` transform forwards every chunk that is
neither a text delta nor a step-finish unchanged and in order (the
subsequence of such chunks in the output equals the one in the input);
every text delta emitted while processing a text-delta chunk ends at a
whitespace boundary (one whole word per chunk); and for every input
prefix ending in a step-finish, the concatenated text-delta payload
emitted so far equals the concatenated text-delta payload received so
far, because the step-finish flushes the buffered tail. -/
theorem smoothStream_pacing_spec (chunks pre : List TextStreamPart)
    (buffer s : List Char) :
    (smoothStreamRun [] chunks).1.filter isOtherPart = chunks.filter isOtherPart
  ∧ ((smoothStreamTransform buffer (TextStreamPart.textDelta s)).1).all
      partEndsInWhitespace = true
  ∧ concatTextDeltas (smoothStreamRun [] (pre ++ [TextStreamPart.stepFinish])).1 =
      concatTextDeltas (pre ++ [TextStreamPart.stepFinish]) := by
  refine ⟨smoothStreamRun_filter_other chunks [], ?_, ?_⟩
  · simp only [smoothStreamTransform]
    rw [map_textDelta_all_ends]
    exact emitWordsFuel_words_end (buffer ++ s).length (buffer ++ s)
  · have hsnd : (smoothStreamRun [] (pre ++ [TextStreamPart.stepFinish])).2 = [] := by
      rw [smoothStreamRun_append pre [TextStreamPart.stepFinish] []]
      simp [smoothStreamRun, smoothStreamTransform]
    have hinv := smoothStreamRun_flatten (pre ++ [TextStreamPart.stepFinish]) []
    rw [hsnd, List.append_nil, List.nil_append] at hinv
    exact hinv

end ChatCore
